import Mathlib

/-!
Shallow embedding of the datacat pipeline engine (github.com/tnotstar/datacat).

Go channels of `core.RowMap` are modelled as finite Lean lists: a stage's
`Run` goroutine, which loops `for row := range in` and closes its output
channel when the loop ends, becomes a function from the input list to the
output list.  `log.Fatalf` (which kills the whole process) and panics are
modelled by `Option`: `none` means the task aborted.  Go `map[string]any`
rows become association lists with a lookup/update discipline matching Go
map semantics.  External standard-library collaborators (strconv parsers,
time.Parse/Format, crypto/aes, base64) are passed in as explicit function
parameters together with their documented contracts; all control flow and
data plumbing is translated from the repository source.
-/

namespace Datacat

/-- A dynamically typed scalar held in a `core.RowMap` field (Go `any`).
`vfloat` carries an opaque representation of a Go `float64`. -/
inductive GoValue where
  | vnull : GoValue
  | vstr (s : String) : GoValue
  | vbool (b : Bool) : GoValue
  | vint (i : Int) : GoValue
  | vfloat (repr : String) : GoValue
  deriving DecidableEq

/-- The `core.RowMap` type (`map[string]any`), modelled as an association
list from field name to value.  Go maps have unique keys; lookup and update
below read and replace the first matching entry, which agrees with Go map
semantics on any list with unique keys. -/
def RowMap := List (String × GoValue)

instance : DecidableEq RowMap := by
  unfold RowMap
  infer_instance

/-- Go `raw, ok := row[field]` — `none` when the key is absent. -/
def getField : RowMap → String → Option GoValue
  | [], _ => none
  | (k, v) :: rest, f => if k = f then some v else getField rest f

/-- Go `row[field] = value` — replace the entry if present, insert it
otherwise. -/
def setField : RowMap → String → GoValue → RowMap
  | [], f, v => [(f, v)]
  | (k, w) :: rest, f, v =>
      if k = f then (k, v) :: rest else (k, w) :: setField rest f v

/-- The Go `fmt.Sprint` rendering of a field value, as the adapters apply it
before parsing (`value := fmt.Sprint(raw)`). -/
def sprint : GoValue → String
  | .vnull => "<nil>"
  | .vstr s => s
  | .vbool b => cond b "true" "false"
  | .vint i => toString i
  | .vfloat r => r

/-- Go `strings.ToLower` — Go lowercases each rune of the string. -/
def goToLower (s : String) : String := ⟨s.data.map Char.toLower⟩

/-- Go `strings.ToUpper` — Go uppercases each rune of the string. -/
def goToUpper (s : String) : String := ⟨s.data.map Char.toUpper⟩

/-- External standard-library collaborators used by
`CastToDatatypeAdapter.Run` (src/adapters/cast.go).  `parseBool`,
`parseInt`, `parseFloat` model `strconv.ParseBool/ParseInt/ParseFloat`,
returning `none` on a parse error.  `timeParse` models `time.Parse inLayout
value` (`none` on error), `timeZero` the zero `time.Time` the failed parse
leaves behind, and `timeFormat outLayout t` models `t.Format(outLayout)`. -/
structure Parsers where
  parseBool : String → Option GoValue
  parseInt : String → Option GoValue
  parseFloat : String → Option GoValue
  timeParse : String → String → Option String
  timeZero : String
  timeFormat : String → String → String

/-- The `switch adp.dataType` conversion in `CastToDatatypeAdapter.Run`
(src/adapters/cast.go lines 113-125).  In the `datetime` branch the source
reads `dtValue, _ := time.Parse(adp.inLayout, value)` — the parse error is
discarded, the (possibly zero) time is formatted and stored, and `err`
stays nil; in every other branch a parse failure leaves `err` non-nil and
reaches `log.Fatalf` (modelled by `none`). -/
def castValue (p : Parsers) (dataType inLayout outLayout : String)
    (value : String) : Option GoValue :=
  if dataType = "boolean" then p.parseBool (goToLower value)
  else if dataType = "int64" then p.parseInt value
  else if dataType = "float64" then p.parseFloat value
  else if dataType = "datetime" then
    some (.vstr (p.timeFormat outLayout ((p.timeParse inLayout value).getD p.timeZero)))
  else none

/-- One iteration of the `for _, field := range adp.fields` loop of
`CastToDatatypeAdapter.Run`: a field that is absent or nil is skipped via
`continue`; otherwise the value is converted in place and a conversion
error is fatal. -/
def castRowField (p : Parsers) (dataType inLayout outLayout : String)
    (row : RowMap) (field : String) : Option RowMap :=
  match getField row field with
  | none => some row
  | some .vnull => some row
  | some v =>
      match castValue p dataType inLayout outLayout (sprint v) with
      | some w => some (setField row field w)
      | none => none

/-- Processing of one record by `CastToDatatypeAdapter.Run`: the field loop,
aborting the whole task at the first fatal conversion. -/
def castRow (p : Parsers) (dataType inLayout outLayout : String)
    (fields : List String) (row : RowMap) : Option RowMap :=
  fields.foldlM (fun r f => castRowField p dataType inLayout outLayout r f) row

/-- The shape shared by every adapter `Run` goroutine: read the input
stream record by record (`for row := range in`), process the record,
forward the result (`out <- row`), and close the output stream when the
input is exhausted; a fatal abort anywhere kills the task. -/
def streamMap (f : RowMap → Option RowMap) : List RowMap →
    Option (List RowMap)
  | [] => some []
  | r :: rs =>
      match f r with
      | none => none
      | some r2 =>
          match streamMap f rs with
          | none => none
          | some rest => some (r2 :: rest)

/-- The whole `CastToDatatypeAdapter.Run` goroutine: `for row := range in`
convert each record and forward it, then `close(out)`; `log.Fatalf`
aborts. -/
def castRun (p : Parsers) (dataType inLayout outLayout : String)
    (fields : List String) (ins : List RowMap) : Option (List RowMap) :=
  streamMap (castRow p dataType inLayout outLayout fields) ins

/-- The `titleCase` helper of src/adapters/random.go lines 326-330:
`tmp := []rune(strings.ToLower(s)); tmp[0] = unicode.ToUpper(tmp[0])`.
Indexing `tmp[0]` panics when the rune slice is empty, modelled by
`none`. -/
def titleCase (s : String) : Option String :=
  match (goToLower s).data with
  | [] => none
  | c :: rest => some ⟨Char.toUpper c :: rest⟩

/-- The `switch adp.handling` of `CaseConversionAdapter.Run`
(src/adapters/random.go lines 300-309); the `default` branch reaches
`log.Fatalf`, modelled by `none` like the `titleCase` panic. -/
def caseValue (handling : String) (value : String) : Option String :=
  if handling = "upper" then some (goToUpper value)
  else if handling = "lower" then some (goToLower value)
  else if handling = "title" then titleCase value
  else none

/-- One iteration of the field loop of `CaseConversionAdapter.Run`: absent
or nil fields are skipped via `continue`. -/
def caseRowField (handling : String) (row : RowMap) (field : String) :
    Option RowMap :=
  match getField row field with
  | none => some row
  | some .vnull => some row
  | some v =>
      match caseValue handling (sprint v) with
      | some s => some (setField row field (.vstr s))
      | none => none

/-- Processing of one record by `CaseConversionAdapter.Run`. -/
def caseRow (handling : String) (fields : List String) (row : RowMap) :
    Option RowMap :=
  fields.foldlM (fun r f => caseRowField handling r f) row

/-- The whole `CaseConversionAdapter.Run` goroutine over its input
stream. -/
def caseRun (handling : String) (fields : List String)
    (ins : List RowMap) : Option (List RowMap) :=
  streamMap (caseRow handling fields) ins

/-- The lookup of `ConstantMappingAdapter.Run` (src/adapters/random.go
lines 437-442): a mapped value replaces the field, anything unmapped gets
the configured `otherwise` default. -/
def constValue (mapData : List (String × String)) (otherwise : String)
    (value : String) : String :=
  match mapData.lookup value with
  | some mapped => mapped
  | none => otherwise

/-- One iteration of the field loop of `ConstantMappingAdapter.Run`: absent
or nil fields are skipped; the mapping itself can never fail. -/
def constRowField (mapData : List (String × String)) (otherwise : String)
    (row : RowMap) (field : String) : RowMap :=
  match getField row field with
  | none => row
  | some .vnull => row
  | some v => setField row field (.vstr (constValue mapData otherwise (sprint v)))

/-- Processing of one record by `ConstantMappingAdapter.Run`. -/
def constRow (mapData : List (String × String)) (otherwise : String)
    (fields : List String) (row : RowMap) : RowMap :=
  fields.foldl (fun r f => constRowField mapData otherwise r f) row

/-- The whole `ConstantMappingAdapter.Run` goroutine over its input
stream. -/
def constRun (mapData : List (String × String)) (otherwise : String)
    (fields : List String) (ins : List RowMap) : List RowMap :=
  ins.map (constRow mapData otherwise fields)

/-- The fields of `core.AdapterConfig` (src/core/config.go lines 99-106)
relevant to dispatch and ordering: the `type` discriminator and the
execution `order` (a Go `int`). -/
structure AdapterCfg where
  type : String
  order : Int
  deriving DecidableEq

/-- The `core.SourceConfig` type discriminator (src/core/config.go). -/
structure SourceCfg where
  type : String
  deriving DecidableEq

/-- The `core.TargetConfig` type discriminator (src/core/config.go). -/
structure TargetCfg where
  type : String
  deriving DecidableEq

/-- One entry of `Config.Tasks` (src/core/config.go lines 43-50): exactly
one source configuration, a map of named adapter configurations, and
exactly one target configuration.  The adapter map is carried as the
association list produced by one (unspecified) Go map iteration order. -/
structure TaskCfg where
  source : SourceCfg
  adapters : List (String × AdapterCfg)
  target : TargetCfg
  deriving DecidableEq

/-- The task map of `core.Config` (src/core/config.go). -/
structure Config where
  tasks : List (String × TaskCfg)
  deriving DecidableEq

/-- One step of the insertion sort that Go `sort.Slice` runs for slices of
fewer than 12 elements, with the comparator of `GetAdapterNames`
(src/core/config.go lines 166-168): `task.Adapters[names[i]].Order <
task.Adapters[names[j]].Order`.  The element moves left past every name
with a strictly larger order and stops at the first name whose order is
less than or equal — equal orders keep their current relative position and
are never reordered by name. -/
def goInsertByOrder (key : String → Int) (a : String) :
    List String → List String
  | [] => [a]
  | b :: l => if key a < key b then a :: b :: l else b :: goInsertByOrder key a l

/-- Go `sort.Slice` on a small slice with the order comparator: insertion
sort of the names in their map iteration order. -/
def goSortByOrder (key : String → Int) (names : List String) : List String :=
  names.foldl (fun acc a => goInsertByOrder key a acc) []

/-- The order assigned to a name by the adapter map, as the comparator of
`GetAdapterNames` reads it (`task.Adapters[name].Order`; every sorted name
is a key of the map, so the default is never observed). -/
def adapterOrder (adapters : List (String × AdapterCfg)) (n : String) : Int :=
  match adapters.lookup n with
  | some a => a.order
  | none => 0

/-- `Config.GetAdapterNames` (src/core/config.go lines 155-171): collect
the adapter names in map iteration order, then `sort.Slice` them by the
`Order` field alone. -/
def getAdapterNames (adapters : List (String × AdapterCfg)) : List String :=
  goSortByOrder (adapterOrder adapters) (adapters.map Prod.fst)

/-- Lexicographic rune order on names, the natural reading of the spec's
"ties broken by configuration-declared name". -/
def nameLess : List Char → List Char → Bool
  | [], [] => false
  | [], _ :: _ => true
  | _ :: _, [] => false
  | c :: cs, d :: ds =>
      if c.toNat < d.toNat then true
      else if c.toNat = d.toNat then nameLess cs ds
      else false

/-- Insertion step for the spec-described ordering of claim C2: strictly
before any name with a larger order, and before any equal-order name that
is lexicographically larger. -/
def specInsertLex (adapters : List (String × AdapterCfg)) (a : String) :
    List String → List String
  | [] => [a]
  | b :: l =>
      if adapterOrder adapters a < adapterOrder adapters b ∨
          (adapterOrder adapters a = adapterOrder adapters b ∧
            nameLess a.data b.data = true) then
        a :: b :: l
      else b :: specInsertLex adapters a l

/-- The Transform resolution described by the spec sentence for claim C2:
sorted ascending by `order`, ties broken by the configuration-declared
adapter name.  Stated for comparison with `getAdapterNames`, which is
translated from the source. -/
def getAdapterNamesSpec (adapters : List (String × AdapterCfg)) :
    List String :=
  (adapters.map Prod.fst).foldl (fun acc a => specInsertLex adapters a acc) []

/-- The closed set of adapter type tags registered in
`adapters.BuildAdapter` (src/adapters/builder.go lines 43-66). -/
def isRegisteredAdapterType (t : String) : Bool :=
  t == "case-conversion-adapter" || t == "constant-mapping-adapter" ||
  t == "cast-to-datatype-adapter" || t == "crypto-aescbczero-adapter" ||
  t == "names-randomizer-adapter" || t == "null-handling-adapter"

/-- The closed set of source type tags registered in `sources.BuildSource`
(src/sources/builder.go lines 41-47). -/
def isRegisteredSourceType (t : String) : Bool :=
  t == "database-query-source" || t == "jsonl-file-source"

/-- Modelled from the spec: the `targets.BuildTarget` dispatcher that
`RunTask` calls is not among the source files; per spec section 4.3 the
role-segmented registry fails fast on any unregistered tag, and
`IsaJSONLFileTarget` (src/unnamed/part_003 lines 44-46) declares the one
registered target type. -/
def isRegisteredTargetType (t : String) : Bool :=
  t == "jsonl-file-target"

/-- An observable construction or start event of `tasks.RunTask`
(src/tasks/run.go lines 37-64); `fatal` is a `log.Fatalf` process abort. -/
inductive Event where
  | sourceStarted : Event
  | adapterStarted (name : String) : Event
  | targetStarted (i : Nat) : Event
  | fatal : Event
  deriving DecidableEq

/-- The target loop of `RunTask` (src/tasks/run.go lines 55-59): exactly
two instances (`for i := 0; i < 2; i++`) of the single configured target
are built and started against the same final stream; an unregistered
target type is fatal at the first `BuildTarget`. -/
def runTargetsTrace (t : TaskCfg) : List Event :=
  if isRegisteredTargetType t.target.type then
    [Event.targetStarted 0, Event.targetStarted 1]
  else [Event.fatal]

/-- The adapter loop of `RunTask` (src/tasks/run.go lines 49-53): for each
resolved name, `BuildAdapter` fatals on an unregistered type, otherwise the
adapter is started, and after the loop the targets are started. -/
def runAdaptersTrace (t : TaskCfg) : List String → List Event
  | [] => runTargetsTrace t
  | n :: ns =>
      match t.adapters.lookup n with
      | none => [Event.fatal]
      | some a =>
          if isRegisteredAdapterType a.type then
            Event.adapterStarted n :: runAdaptersTrace t ns
          else [Event.fatal]

/-- The construction and start order of `tasks.RunTask`: the source is
built and its `Run` goroutine started (lines 46-47) before any adapter is
built (lines 49-53), then the two target instances (lines 55-59).  A
missing task or unregistered source type is fatal inside
`sources.BuildSource`. -/
def runTaskTrace (cfg : Config) (taskName : String) : List Event :=
  match cfg.tasks.lookup taskName with
  | none => [Event.fatal]
  | some t =>
      if isRegisteredSourceType t.source.type then
        Event.sourceStarted :: runAdaptersTrace t (getAdapterNames t.adapters)
      else [Event.fatal]

/-- The per-stage stream semantics of the `RunTask` adapter chain
(src/tasks/run.go lines 49-53): `pipe = adapter.Run(&wg, pipe)` threads
each adapter's output stream into the next; each concrete adapter above
processes its stream record by record. -/
def pipelineRun (stages : List (RowMap → Option RowMap))
    (ins : List RowMap) : Option (List RowMap) :=
  stages.foldlM (fun s f => streamMap f s) ins

/-- The record-wise composition of an adapter chain: what one input record
becomes after passing every stage (aborting on the first fatal stage). -/
def kleisliChain (stages : List (RowMap → Option RowMap)) (r : RowMap) :
    Option RowMap :=
  stages.foldlM (fun x f => f x) r

/-- Competing consumption of the final stream by the two target instances
of `RunTask` (src/tasks/run.go lines 55-59; `JSONLinesTarget.Run`,
src/unnamed/part_003 lines 75-108): both goroutines loop
`for row := range in` over the same channel, and the Go runtime delivers
each sent record to exactly one ready receiver.  The scheduler's choice for
the record at each position is abstracted as `sched`. -/
def splitRecords (sched : Nat → Bool) : Nat → List RowMap →
    List RowMap × List RowMap
  | _, [] => ([], [])
  | i, r :: rs =>
      let p := splitRecords sched (i + 1) rs
      if sched i then (r :: p.1, p.2) else (p.1, r :: p.2)

/-- The pair of record sequences received by target instance 0 and target
instance 1 of a task, given the final stream and a delivery schedule. -/
def runTaskSinkStreams (sched : Nat → Bool) (finalStream : List RowMap) :
    List RowMap × List RowMap :=
  splitRecords sched 0 finalStream

/-- Number of `wg.Add(1)` calls a successful `RunTask` issues: one in the
source `Run` (src/unnamed/part_012 line 113), one per adapter `Run`, and
one per each of the two target `Run` calls. -/
def runTaskAdds (numAdapters : Nat) : Nat := 1 + numAdapters + 2

/-- Number of `wg.Done` calls fired when every stage goroutine of a
successful `RunTask` terminates: each goroutine runs `defer wg.Done()`
first, so completing its loop and closing its output fires exactly one. -/
def runTaskDones (numAdapters : Nat) : Nat := 1 + numAdapters + 2

/-- The AES block permutation obtained from `aes.NewCipher(key)`, kept
abstract: `enc` is `Encrypt` and `dec` is `Decrypt` on one 16-byte block.
Bytes are naturals below 256. -/
structure BlockCipher where
  enc : List Nat → List Nat
  dec : List Nat → List Nat

/-- Whether `aes.NewCipher(key)` succeeds: the Go standard library accepts
exactly the AES key lengths 16, 24 and 32 bytes. -/
def validAESKeyLength (key : List Nat) : Prop :=
  key.length = 16 ∨ key.length = 24 ∨ key.length = 32

instance (key : List Nat) : Decidable (validAESKeyLength key) := by
  unfold validAESKeyLength
  infer_instance

/-- Bytewise XOR of two equal-length byte strings, as the CBC mode chains
blocks. -/
def zipXor (a b : List Nat) : List Nat := List.zipWith Nat.xor a b

/-- The documented semantics of `cipher.NewCBCEncrypter(aes, iv)` followed
by one `CryptBlocks` call: each plaintext block is XORed with the previous
ciphertext block (the IV for the first) and passed through the block
cipher. -/
def cbcEncryptBlocks (C : BlockCipher) (prev : List Nat) :
    List (List Nat) → List (List Nat)
  | [] => []
  | p :: ps =>
      let c := C.enc (zipXor prev p)
      c :: cbcEncryptBlocks C c ps

/-- The documented semantics of `cipher.NewCBCDecrypter(aes, iv)` followed
by one `CryptBlocks` call. -/
def cbcDecryptBlocks (C : BlockCipher) (prev : List Nat) :
    List (List Nat) → List (List Nat)
  | [] => []
  | c :: cs => zipXor prev (C.dec c) :: cbcDecryptBlocks C c cs

/-- Split a byte string into consecutive 16-byte blocks, the unit
`CryptBlocks` operates on. -/
def toBlocks (l : List Nat) : List (List Nat) :=
  if l = [] then [] else l.take 16 :: toBlocks (l.drop 16)
  termination_by l.length
  decreasing_by
    simp only [List.length_drop]
    cases l with
    | nil => simp_all
    | cons a l => simp only [List.length_cons]; omega

/-- `encryptAESCBCWithZeropad` (src/unnamed/part_005 lines 151-174): build
the cipher (an invalid key length is the `aes.NewCipher` error path), zero
pad the plaintext to a whole number of blocks — with no padding at all when
the length is already a multiple of the block size — CBC-encrypt, and
base64 encode.  `b64encode` models `base64.StdEncoding.EncodeToString`.
`cipher.NewCBCEncrypter` panics unless the IV is one block long, modelled
as `none`. -/
def encryptAESCBCWithZeropad (C : BlockCipher)
    (b64encode : List Nat → String) (plaintxt : List Nat)
    (key iv : List Nat) : Option String :=
  if ¬ validAESKeyLength key then none
  else if iv.length ≠ 16 then none
  else
    let byteslen := plaintxt.length
    let padding0 := 16 - byteslen % 16
    let padding := if padding0 = 16 then 0 else padding0
    let paddedtxt := plaintxt ++ List.replicate padding 0
    let ciphertxt := (cbcEncryptBlocks C iv (toBlocks paddedtxt)).flatten
    some (b64encode ciphertxt)

/-- `decryptAESCBCZeropad` (src/unnamed/part_005 lines 183-204): build the
cipher, base64 decode (`b64decode` models
`base64.StdEncoding.DecodeString`, `none` on its error path), CBC-decrypt —
`CryptBlocks` panics on a partial block, modelled as `none` — and truncate
at the first zero byte (`bytes.IndexByte`; the whole text when none is
found). -/
def decryptAESCBCZeropad (C : BlockCipher)
    (b64decode : String → Option (List Nat)) (ciphertxt : String)
    (key iv : List Nat) : Option (List Nat) :=
  if ¬ validAESKeyLength key then none
  else
    match b64decode ciphertxt with
    | none => none
    | some decodedtxt =>
        if iv.length ≠ 16 then none
        else if decodedtxt.length % 16 ≠ 0 then none
        else
          let bytestxt := (cbcDecryptBlocks C iv (toBlocks decodedtxt)).flatten
          some (bytestxt.take (bytestxt.findIdx (fun b => b == 0)))

/-- Number of target (sink) instances a `RunTask` trace has started. -/
def targetStartCount (es : List Event) : Nat :=
  (es.filter (fun e =>
    match e with
    | .targetStarted _ => true
    | _ => false)).length

/-- Number of source instances a `RunTask` trace has started. -/
def sourceStartCount (es : List Event) : Nat :=
  (es.filter (fun e =>
    match e with
    | .sourceStarted => true
    | _ => false)).length

/-- A concrete block cipher satisfying the `aes.NewCipher` contract, used
to instantiate witnesses: the identity permutation on blocks. -/
def idCipher : BlockCipher := ⟨id, id⟩

/-- A concrete byte-string-to-text codec satisfying the
`base64.StdEncoding` round-trip contract, used to instantiate witnesses:
each byte is written in unary as a run of letters terminated by a
marker. -/
def trivEncode (bs : List Nat) : String :=
  ⟨bs.flatMap (fun n => List.replicate n 'a' ++ ['b'])⟩

/-- Decoding loop for `trivEncode`: counts the current run and emits it at
each marker. -/
def trivDecodeAux : List Char → Nat → Option (List Nat)
  | [], 0 => some []
  | [], _ + 1 => none
  | c :: r, cur =>
      if c = 'b' then (trivDecodeAux r 0).map (cur :: ·)
      else if c = 'a' then trivDecodeAux r (cur + 1)
      else none

/-- Inverse of `trivEncode`. -/
def trivDecode (s : String) : Option (List Nat) := trivDecodeAux s.data 0

/-- Concrete parser collaborators for witnesses and counterexamples: every
parse fails, `time.Parse` also fails and leaves the zero `time.Time`, and
`Format` renders the time value itself (the layouts are ignored). -/
def failParsers : Parsers :=
  ⟨fun _ => none, fun _ => none, fun _ => none, fun _ _ => none,
    "0001-01-01 00:00:00 +0000 UTC", fun _ t => t⟩

/-- Concrete parser collaborators for witnesses where a boolean parse
succeeds on the rendered value "true". -/
def boolParsers : Parsers :=
  ⟨fun s => if s = "true" then some (.vbool true) else none,
    fun _ => none, fun _ => none, fun _ _ => none,
    "0001-01-01 00:00:00 +0000 UTC", fun _ t => t⟩

theorem getField_setField_ne (row : RowMap) (f name : String) (v : GoValue)
    (h : name ≠ f) : getField (setField row f v) name = getField row name := by
  induction row with
  | nil =>
      have hfn : ¬ f = name := fun hc => h hc.symm
      simp [getField, setField, hfn]
  | cons kv rest ih =>
      obtain ⟨k, w⟩ := kv
      by_cases hk : k = f
      · subst hk
        have hkn : ¬ k = name := fun hc => h (hc.symm)
        simp [getField, setField, hkn]
      · by_cases hn : k = name
        · subst hn
          simp [getField, setField, hk]
        · simp [getField, setField, hk, hn, ih]

theorem splitRecords_perm (sched : Nat → Bool) (i : Nat)
    (l : List RowMap) :
    ((splitRecords sched i l).1 ++ (splitRecords sched i l).2).Perm l := by
  induction l generalizing i with
  | nil => simp [splitRecords]
  | cons r rs ih =>
      by_cases hs : sched i
      · simpa [splitRecords, hs] using (ih (i + 1)).cons r
      · simp only [splitRecords, hs]
        exact List.perm_middle.trans ((ih (i + 1)).cons r)

/-- C1.  When the two competing Sink instances started by `RunTask` consume
the same final Stream, each Record is delivered to exactly one of them, so
for every delivery schedule the union of the Records the two Sinks receive
is a permutation of the Records leaving the last Transform: nothing is
duplicated and nothing is lost. -/
theorem sink_union_eq_final_stream (sched : Nat → Bool)
    (finalStream : List RowMap) :
    ((runTaskSinkStreams sched finalStream).1 ++
        (runTaskSinkStreams sched finalStream).2).Perm finalStream :=
  splitRecords_perm sched 0 finalStream

/-- C9.  The case-conversion adapter's `titleCase` is defined exactly on
non-empty strings: a non-empty string is lower-cased with its first rune
upper-cased, while the empty string makes `tmp[0]` index an empty rune
slice and panic, so a Record whose configured field prints as the empty
string aborts the adapter. -/
theorem titleCase_total_iff_nonempty :
    (∀ (s : String) (c : Char) (cs : List Char), s.data = c :: cs →
        titleCase s = some ⟨Char.toUpper (Char.toLower c) :: cs.map Char.toLower⟩) ∧
    titleCase "" = none ∧
    (∀ (row : RowMap) (f : String) (v : GoValue), getField row f = some v →
        v ≠ .vnull → sprint v = "" → caseRow "title" [f] row = none) := by
  refine ⟨?_, ?_, ?_⟩
  · intro s c cs h
    simp [titleCase, goToLower, h]
  · rfl
  · intro row f v hget hnn hpr
    have hv : caseValue "title" (sprint v) = none := by
      rw [hpr]
      rfl
    cases v with
    | vnull => exact absurd rfl hnn
    | vstr s =>
        simp [caseRow, caseRowField, hget, hv]
    | vbool b => simp [caseRow, caseRowField, hget, hv]
    | vint i => simp [caseRow, caseRowField, hget, hv]
    | vfloat r => simp [caseRow, caseRowField, hget, hv]

/-- Witness for C9 at concrete inputs: "hELLO" has a first rune and is
title-cased to "Hello", and a record whose field holds the empty string
aborts. -/
theorem titleCase_total_iff_nonempty_witness :
    titleCase "hELLO" = some "Hello" ∧
    caseRow "title" ["f"] [("f", GoValue.vstr "")] = none := by
  constructor
  · have h := titleCase_total_iff_nonempty.1 "hELLO" 'h' ['E', 'L', 'L', 'O'] rfl
    simpa using h
  · exact titleCase_total_iff_nonempty.2.2 [("f", GoValue.vstr "")] "f"
      (GoValue.vstr "") rfl (by simp) rfl

theorem castRowField_frame (p : Parsers) (dt inL outL : String)
    (row r' : RowMap) (f name : String)
    (h : castRowField p dt inL outL row f = some r') (hne : name ≠ f) :
    getField r' name = getField row name := by
  unfold castRowField at h
  split at h
  · cases h; rfl
  · cases h; rfl
  · split at h
    · cases h; exact getField_setField_ne _ _ _ _ hne
    · exact Option.noConfusion h

theorem castRow_frame (p : Parsers) (dt inL outL : String)
    (fields : List String) (row out : RowMap) (name : String)
    (h : castRow p dt inL outL fields row = some out) (hn : name ∉ fields) :
    getField out name = getField row name := by
  induction fields generalizing row with
  | nil =>
      simp only [castRow, List.foldlM_nil] at h
      cases h
      rfl
  | cons f fs ih =>
      simp only [castRow, List.foldlM_cons] at h
      cases hstep : castRowField p dt inL outL row f with
      | none => rw [hstep] at h; cases h
      | some mid =>
          rw [hstep] at h
          have hne : name ≠ f := fun hc => hn (hc ▸ List.mem_cons_self f fs)
          have hnfs : name ∉ fs := fun hc => hn (List.mem_cons_of_mem f hc)
          calc getField out name
              = getField mid name := ih mid h hnfs
            _ = getField row name := castRowField_frame p dt inL outL row mid f name hstep hne

theorem caseRowField_frame (handling : String) (row r' : RowMap)
    (f name : String) (h : caseRowField handling row f = some r')
    (hne : name ≠ f) : getField r' name = getField row name := by
  unfold caseRowField at h
  split at h
  · cases h; rfl
  · cases h; rfl
  · split at h
    · cases h; exact getField_setField_ne _ _ _ _ hne
    · exact Option.noConfusion h

theorem caseRow_frame (handling : String) (fields : List String)
    (row out : RowMap) (name : String)
    (h : caseRow handling fields row = some out) (hn : name ∉ fields) :
    getField out name = getField row name := by
  induction fields generalizing row with
  | nil =>
      simp only [caseRow, List.foldlM_nil] at h
      cases h
      rfl
  | cons f fs ih =>
      simp only [caseRow, List.foldlM_cons] at h
      cases hstep : caseRowField handling row f with
      | none => rw [hstep] at h; cases h
      | some mid =>
          rw [hstep] at h
          have hne : name ≠ f := fun hc => hn (hc ▸ List.mem_cons_self f fs)
          have hnfs : name ∉ fs := fun hc => hn (List.mem_cons_of_mem f hc)
          calc getField out name
              = getField mid name := ih mid h hnfs
            _ = getField row name := caseRowField_frame handling row mid f name hstep hne

theorem constRowField_frame (md : List (String × String)) (oth : String)
    (row : RowMap) (f name : String) (hne : name ≠ f) :
    getField (constRowField md oth row f) name = getField row name := by
  unfold constRowField
  split
  · rfl
  · rfl
  · exact getField_setField_ne _ _ _ _ hne

theorem constRow_frame (md : List (String × String)) (oth : String)
    (fields : List String) (row : RowMap) (name : String)
    (hn : name ∉ fields) :
    getField (constRow md oth fields row) name = getField row name := by
  induction fields generalizing row with
  | nil => rfl
  | cons f fs ih =>
      have hne : name ≠ f := fun hc => hn (hc ▸ List.mem_cons_self f fs)
      have hnfs : name ∉ fs := fun hc => hn (List.mem_cons_of_mem f hc)
      calc getField (constRow md oth (f :: fs) row) name
          = getField (constRowField md oth row f) name := ih _ hnfs
        _ = getField row name := constRowField_frame md oth row f name hne

/-- C10.  Frame property of the three field transforms: a field whose name
is not among the adapter's configured `fields` is never changed by the
cast-to-datatype, case-conversion or constant-mapping adapter, and a
configured field that is absent from the Record or holds nil is skipped
unchanged instead of failing. -/
theorem field_transforms_frame :
    (∀ (p : Parsers) (dt inL outL : String) (fields : List String)
        (row out : RowMap) (name : String),
        castRow p dt inL outL fields row = some out → name ∉ fields →
        getField out name = getField row name) ∧
    (∀ (handling : String) (fields : List String) (row out : RowMap)
        (name : String),
        caseRow handling fields row = some out → name ∉ fields →
        getField out name = getField row name) ∧
    (∀ (md : List (String × String)) (oth : String) (fields : List String)
        (row : RowMap) (name : String), name ∉ fields →
        getField (constRow md oth fields row) name = getField row name) ∧
    (∀ (p : Parsers) (dt inL outL : String) (row : RowMap) (f : String),
        getField row f = none ∨ getField row f = some .vnull →
        castRowField p dt inL outL row f = some row) ∧
    (∀ (handling : String) (row : RowMap) (f : String),
        getField row f = none ∨ getField row f = some .vnull →
        caseRowField handling row f = some row) ∧
    (∀ (md : List (String × String)) (oth : String) (row : RowMap)
        (f : String),
        getField row f = none ∨ getField row f = some .vnull →
        constRowField md oth row f = row) := by
  refine ⟨?_, ?_, ?_, ?_, ?_, ?_⟩
  · intro p dt inL outL fields row out name h hn
    exact castRow_frame p dt inL outL fields row out name h hn
  · intro handling fields row out name h hn
    exact caseRow_frame handling fields row out name h hn
  · intro md oth fields row name hn
    exact constRow_frame md oth fields row name hn
  · intro p dt inL outL row f h
    rcases h with h | h <;> simp [castRowField, h]
  · intro handling row f h
    rcases h with h | h <;> simp [caseRowField, h]
  · intro md oth row f h
    rcases h with h | h <;> simp [constRowField, h]

/-- Witness for C10 at concrete inputs: converting field "a" leaves field
"b" untouched in all three adapters, and an absent or nil configured field
is skipped. -/
theorem field_transforms_frame_witness :
    getField [("a", GoValue.vbool true), ("b", GoValue.vint 7)] "b" =
      getField [("a", GoValue.vstr "true"), ("b", GoValue.vint 7)] "b" ∧
    castRowField failParsers "boolean" "i" "o"
      [("a", GoValue.vstr "x")] "zzz" = some [("a", GoValue.vstr "x")] ∧
    caseRowField "upper" [("a", GoValue.vnull)] "a" =
      some [("a", GoValue.vnull)] ∧
    constRowField [] "d" [("a", GoValue.vnull)] "a" = [("a", GoValue.vnull)] := by
  refine ⟨?_, ?_, ?_, ?_⟩
  · exact field_transforms_frame.1 boolParsers "boolean" "i" "o" ["a"]
      [("a", GoValue.vstr "true"), ("b", GoValue.vint 7)]
      [("a", GoValue.vbool true), ("b", GoValue.vint 7)] "b"
      (by decide) (by decide)
  · exact field_transforms_frame.2.2.2.1 failParsers "boolean" "i" "o"
      [("a", GoValue.vstr "x")] "zzz" (Or.inl (by decide))
  · exact field_transforms_frame.2.2.2.2.1 "upper" [("a", GoValue.vnull)] "a"
      (Or.inr (by decide))
  · exact field_transforms_frame.2.2.2.2.2 [] "d" [("a", GoValue.vnull)] "a"
      (Or.inr (by decide))

theorem castRow_append (p : Parsers) (dt inL outL : String)
    (l1 l2 : List String) (row : RowMap) :
    castRow p dt inL outL (l1 ++ l2) row =
      (castRow p dt inL outL l1 row).bind (castRow p dt inL outL l2) := by
  induction l1 generalizing row with
  | nil => simp [castRow]
  | cons f fs ih =>
      simp only [castRow, List.cons_append, List.foldlM_cons]
      cases hstep : castRowField p dt inL outL row f with
      | none => rfl
      | some mid => exact ih mid

/-- C6 (corrected).  A failed conversion of a present, non-nil field value
is fatal to the whole Task for the `boolean`, `int64`, `float64` and
unrecognized datatypes — whenever the field loop reaches a value whose
conversion errors, the record and the Task die with it.  The `datetime`
datatype is the exception: its conversion never produces an error, because
the `time.Parse` error is discarded and the zero time is formatted into the
field instead. -/
theorem cast_failure_fatal_except_datetime :
    (∀ (p : Parsers) (dt inL outL : String) (pre post : List String)
        (f : String) (row row2 : RowMap) (v : GoValue),
        castRow p dt inL outL pre row = some row2 →
        getField row2 f = some v → v ≠ .vnull →
        castValue p dt inL outL (sprint v) = none →
        castRow p dt inL outL (pre ++ f :: post) row = none) ∧
    (∀ (p : Parsers) (inL outL s : String),
        castValue p "datetime" inL outL s =
          some (.vstr (p.timeFormat outL ((p.timeParse inL s).getD p.timeZero)))) := by
  constructor
  · intro p dt inL outL pre post f row row2 v h1 hget hnn hcv
    rw [castRow_append, h1, Option.some_bind]
    simp only [castRow, List.foldlM_cons]
    have hstep : castRowField p dt inL outL row2 f = none := by
      unfold castRowField
      rw [hget]
      cases v with
      | vnull => exact absurd rfl hnn
      | vstr s => simp [hcv]
      | vbool b => simp [hcv]
      | vint i => simp [hcv]
      | vfloat r => simp [hcv]
    rw [hstep]
    rfl
  · intro p inL outL s
    simp [castValue]

/-- Witness for the C6 theorem: a boolean conversion failure on the single
configured field aborts, and the datetime branch formats the fallback zero
time. -/
theorem cast_failure_fatal_except_datetime_witness :
    castRow failParsers "boolean" "i" "o" ["f"] [("f", GoValue.vstr "zzz")] = none ∧
    castValue failParsers "datetime" "i" "o" "zzz" =
      some (.vstr ((failParsers.timeParse "i" "zzz").getD failParsers.timeZero)) := by
  constructor
  · exact cast_failure_fatal_except_datetime.1 failParsers "boolean" "i" "o"
      [] [] "f" [("f", GoValue.vstr "zzz")] [("f", GoValue.vstr "zzz")]
      (GoValue.vstr "zzz") rfl rfl (by simp) rfl
  · exact cast_failure_fatal_except_datetime.2 failParsers "i" "o" "zzz"

/-- Counterexample to C6 as stated: for the configured datatype `datetime`,
a Record whose field value fails to parse (`time.Parse` returns an error on
"not-a-date") does NOT terminate the Task — the record is passed through
with the field replaced by the formatted zero time. -/
theorem cast_datetime_failure_counterexample :
    failParsers.timeParse "2006-01-02" "not-a-date" = none ∧
    castRow failParsers "datetime" "2006-01-02" "2006-01-02" ["f"]
        [("f", GoValue.vstr "not-a-date")] =
      some [("f", GoValue.vstr "0001-01-01 00:00:00 +0000 UTC")] := by
  exact ⟨rfl, by decide⟩

theorem runAdaptersTrace_stops_at_bad (t : TaskCfg) (pre : List String)
    (n : String) (post : List String) (a : AdapterCfg)
    (hpre : ∀ m ∈ pre, ∃ b, t.adapters.lookup m = some b ∧
        isRegisteredAdapterType b.type = true)
    (hn : t.adapters.lookup n = some a)
    (hbad : isRegisteredAdapterType a.type = false) :
    runAdaptersTrace t (pre ++ n :: post) =
      pre.map Event.adapterStarted ++ [Event.fatal] := by
  induction pre with
  | nil =>
      simp only [List.nil_append, runAdaptersTrace, hn, hbad, List.map_nil,
        Bool.false_eq_true, if_false]
  | cons m ms ih =>
      obtain ⟨b, hb, hbreg⟩ := hpre m (List.mem_cons_self m ms)
      have ihres := ih (fun x hx => hpre x (List.mem_cons_of_mem m hx))
      simp only [List.cons_append, runAdaptersTrace, hb, hbreg, if_true,
        List.map_cons, List.append_eq, ihres]

theorem runAdaptersTrace_all_valid (t : TaskCfg) (names : List String)
    (hall : ∀ m ∈ names, ∃ b, t.adapters.lookup m = some b ∧
        isRegisteredAdapterType b.type = true) :
    runAdaptersTrace t names =
      names.map Event.adapterStarted ++ runTargetsTrace t := by
  induction names with
  | nil => rfl
  | cons m ms ih =>
      obtain ⟨b, hb, hbreg⟩ := hall m (List.mem_cons_self m ms)
      have ihres := ih (fun x hx => hall x (List.mem_cons_of_mem m hx))
      simp only [runAdaptersTrace, hb, hbreg, if_true, List.map_cons,
        List.cons_append, ihres]

theorem startCounts_adapterPrefix (l : List String) (rest : List Event) :
    targetStartCount (l.map Event.adapterStarted ++ rest) =
      targetStartCount rest ∧
    sourceStartCount (l.map Event.adapterStarted ++ rest) =
      sourceStartCount rest ∧
    targetStartCount (Event.sourceStarted :: (l.map Event.adapterStarted ++ rest)) =
      targetStartCount rest ∧
    sourceStartCount (Event.sourceStarted :: (l.map Event.adapterStarted ++ rest)) =
      sourceStartCount rest + 1 := by
  induction l with
  | nil =>
      refine ⟨rfl, rfl, rfl, ?_⟩
      simp [sourceStartCount, List.filter]
  | cons m ms ih =>
      obtain ⟨h1, h2, h3, h4⟩ := ih
      refine ⟨?_, ?_, ?_, ?_⟩
      · simpa [targetStartCount, List.filter] using h1
      · simpa [sourceStartCount, List.filter] using h2
      · simpa [targetStartCount, List.filter] using h1
      · simpa [sourceStartCount, List.filter] using h2

/-- C3 (corrected).  A Task whose configuration names an unregistered
Transform type fails fast while `BuildAdapter` resolves that Transform,
before that Transform, any later Transform, or any Sink instance is
started — but only AFTER the Source has been built and its `Run` goroutine
started, because `RunTask` starts the source before it builds the first
adapter. -/
theorem unknown_adapter_fatal_after_source_started (cfg : Config)
    (taskName : String) (t : TaskCfg) (pre : List String) (n : String)
    (post : List String) (a : AdapterCfg)
    (ht : cfg.tasks.lookup taskName = some t)
    (hsrc : isRegisteredSourceType t.source.type = true)
    (hsplit : getAdapterNames t.adapters = pre ++ n :: post)
    (hpre : ∀ m ∈ pre, ∃ b, t.adapters.lookup m = some b ∧
        isRegisteredAdapterType b.type = true)
    (hn : t.adapters.lookup n = some a)
    (hbad : isRegisteredAdapterType a.type = false) :
    runTaskTrace cfg taskName =
      Event.sourceStarted ::
        (pre.map Event.adapterStarted ++ [Event.fatal]) ∧
    sourceStartCount (runTaskTrace cfg taskName) = 1 ∧
    targetStartCount (runTaskTrace cfg taskName) = 0 := by
  have htrace : runTaskTrace cfg taskName =
      Event.sourceStarted :: (pre.map Event.adapterStarted ++ [Event.fatal]) := by
    simp only [runTaskTrace, ht, hsrc, if_true, hsplit]
    rw [runAdaptersTrace_stops_at_bad t pre n post a hpre hn hbad]
  refine ⟨htrace, ?_, ?_⟩
  · rw [htrace, (startCounts_adapterPrefix pre [Event.fatal]).2.2.2]
    rfl
  · rw [htrace, (startCounts_adapterPrefix pre [Event.fatal]).2.2.1]
    rfl

/-- Witness for the C3 theorem at a concrete configuration with one valid
adapter followed by one of unregistered type. -/
theorem unknown_adapter_fatal_after_source_started_witness :
    runTaskTrace
        ⟨[("t", ⟨⟨"database-query-source"⟩,
          [("ok", ⟨"null-handling-adapter", 1⟩), ("bad", ⟨"bogus-type", 2⟩)],
          ⟨"jsonl-file-target"⟩⟩)]⟩ "t" =
      Event.sourceStarted ::
        (["ok"].map Event.adapterStarted ++ [Event.fatal]) := by
  exact (unknown_adapter_fatal_after_source_started
    ⟨[("t", ⟨⟨"database-query-source"⟩,
      [("ok", ⟨"null-handling-adapter", 1⟩), ("bad", ⟨"bogus-type", 2⟩)],
      ⟨"jsonl-file-target"⟩⟩)]⟩ "t"
    ⟨⟨"database-query-source"⟩,
      [("ok", ⟨"null-handling-adapter", 1⟩), ("bad", ⟨"bogus-type", 2⟩)],
      ⟨"jsonl-file-target"⟩⟩
    ["ok"] "bad" [] ⟨"bogus-type", 2⟩
    (by decide) (by decide) (by decide)
    (by intro m hm; simp at hm; subst hm;
        exact ⟨⟨"null-handling-adapter", 1⟩, by decide, by decide⟩)
    (by decide) (by decide)).1

/-- Counterexample to C3 as stated: with a single Transform of unregistered
type, the run does abort, but the trace shows the Source was started
BEFORE the fatal abort — the Source is not prevented from running. -/
theorem unknown_adapter_source_already_started_counterexample :
    runTaskTrace
        ⟨[("t", ⟨⟨"database-query-source"⟩, [("x", ⟨"bogus-type", 1⟩)],
          ⟨"jsonl-file-target"⟩⟩)]⟩ "t" =
      [Event.sourceStarted, Event.fatal] := by
  decide

/-- C7 (corrected).  A Task configuration carries exactly one Source
configuration, zero-or-more ordered Transform configurations and exactly
ONE Sink (target) configuration, and `RunTask` always starts exactly two
Sink instances of that one configuration against the same final Stream —
the instance count is the hardcoded loop bound 2, not a function of the
configuration. -/
theorem task_always_starts_two_sink_instances (cfg : Config)
    (taskName : String) (t : TaskCfg)
    (ht : cfg.tasks.lookup taskName = some t)
    (hsrc : isRegisteredSourceType t.source.type = true)
    (hall : ∀ m ∈ getAdapterNames t.adapters, ∃ b,
        t.adapters.lookup m = some b ∧ isRegisteredAdapterType b.type = true)
    (htgt : isRegisteredTargetType t.target.type = true) :
    targetStartCount (runTaskTrace cfg taskName) = 2 ∧
    sourceStartCount (runTaskTrace cfg taskName) = 1 := by
  have htrace : runTaskTrace cfg taskName =
      Event.sourceStarted ::
        ((getAdapterNames t.adapters).map Event.adapterStarted ++
          [Event.targetStarted 0, Event.targetStarted 1]) := by
    simp only [runTaskTrace, ht, hsrc, if_true]
    rw [runAdaptersTrace_all_valid t _ hall]
    simp only [runTargetsTrace, htgt, if_true]
  constructor
  · rw [htrace, (startCounts_adapterPrefix (getAdapterNames t.adapters)
      [Event.targetStarted 0, Event.targetStarted 1]).2.2.1]
    rfl
  · rw [htrace, (startCounts_adapterPrefix (getAdapterNames t.adapters)
      [Event.targetStarted 0, Event.targetStarted 1]).2.2.2]
    rfl

/-- Witness for the C7 theorem at a concrete, fully valid configuration. -/
theorem task_always_starts_two_sink_instances_witness :
    targetStartCount (runTaskTrace
        ⟨[("t", ⟨⟨"database-query-source"⟩,
          [("x", ⟨"null-handling-adapter", 1⟩)],
          ⟨"jsonl-file-target"⟩⟩)]⟩ "t") = 2 := by
  exact (task_always_starts_two_sink_instances
    ⟨[("t", ⟨⟨"database-query-source"⟩,
      [("x", ⟨"null-handling-adapter", 1⟩)], ⟨"jsonl-file-target"⟩⟩)]⟩ "t"
    ⟨⟨"database-query-source"⟩,
      [("x", ⟨"null-handling-adapter", 1⟩)], ⟨"jsonl-file-target"⟩⟩
    (by decide) (by decide)
    (by intro m hm; simp [getAdapterNames, goSortByOrder, goInsertByOrder] at hm;
        subst hm;
        exact ⟨⟨"null-handling-adapter", 1⟩, by decide, by decide⟩)
    (by decide)).1

/-- Counterexample to C7 as stated: this Task declares exactly one Sink
configuration, yet `RunTask` starts two Sink instances, so the number of
Sink instances started is not one per configured Sink configuration. -/
theorem one_sink_config_two_instances_counterexample :
    targetStartCount (runTaskTrace
        ⟨[("t", ⟨⟨"database-query-source"⟩, [],
          ⟨"jsonl-file-target"⟩⟩)]⟩ "t") = 2 ∧ (2 : Nat) ≠ 1 := by
  exact ⟨by decide, by decide⟩

theorem streamMap_length (f : RowMap → Option RowMap) (l out : List RowMap)
    (h : streamMap f l = some out) : out.length = l.length := by
  induction l generalizing out with
  | nil =>
      cases h
      rfl
  | cons r rs ih =>
      unfold streamMap at h
      cases hr : f r with
      | none => rw [hr] at h; exact Option.noConfusion h
      | some r2 =>
          rw [hr] at h
          cases hrest : streamMap f rs with
          | none => rw [hrest] at h; exact Option.noConfusion h
          | some rest =>
              rw [hrest] at h
              cases h
              simp [ih rest hrest]

theorem streamMap_get (f : RowMap → Option RowMap) (l out : List RowMap)
    (h : streamMap f l = some out) :
    ∀ (i : Nat) (hi : i < l.length) (ho : i < out.length),
      f (l.get ⟨i, hi⟩) = some (out.get ⟨i, ho⟩) := by
  induction l generalizing out with
  | nil => intro i hi _; exact absurd hi (by simp)
  | cons r rs ih =>
      unfold streamMap at h
      cases hr : f r with
      | none => rw [hr] at h; exact Option.noConfusion h
      | some r2 =>
          rw [hr] at h
          cases hrest : streamMap f rs with
          | none => rw [hrest] at h; exact Option.noConfusion h
          | some rest =>
              rw [hrest] at h
              cases h
              intro i hi ho
              cases i with
              | zero => simpa using hr
              | succ j =>
                  exact ih rest hrest j (Nat.lt_of_succ_lt_succ hi)
                    (Nat.lt_of_succ_lt_succ ho)

theorem streamMap_id (l : List RowMap) :
    streamMap (fun r => some r) l = some l := by
  induction l with
  | nil => rfl
  | cons r rs ih => simp [streamMap, ih]

theorem streamMap_bind (f g : RowMap → Option RowMap) (l : List RowMap) :
    (streamMap f l).bind (streamMap g) =
      streamMap (fun r => (f r).bind g) l := by
  induction l with
  | nil => rfl
  | cons r rs ih =>
      simp only [streamMap]
      cases hr : f r with
      | none => rfl
      | some r2 =>
          simp only [Option.some_bind]
          cases hrest : streamMap f rs with
          | none =>
              rw [hrest] at ih
              simp only [Option.none_bind] at ih
              cases hg : g r2 with
              | none => rfl
              | some r3 =>
                  simp only [hg, ← ih]
                  rfl
          | some rest =>
              rw [hrest] at ih
              simp only [Option.some_bind] at ih
              cases hg : g r2 with
              | none => simp [streamMap, hg]
              | some r3 => simp [streamMap, hg, ← ih]

theorem kleisliChain_cons (f : RowMap → Option RowMap)
    (fs : List (RowMap → Option RowMap)) (r : RowMap) :
    kleisliChain (f :: fs) r = (f r).bind (kleisliChain fs) := by
  simp only [kleisliChain, List.foldlM_cons]
  cases f r <;> rfl

theorem pipelineRun_eq_streamMap (stages : List (RowMap → Option RowMap))
    (ins : List RowMap) :
    pipelineRun stages ins = streamMap (kleisliChain stages) ins := by
  induction stages generalizing ins with
  | nil =>
      simp only [pipelineRun, List.foldlM_nil]
      exact (streamMap_id ins).symm
  | cons g gs ih =>
      simp only [pipelineRun, List.foldlM_cons]
      have hchain : streamMap (kleisliChain (g :: gs)) ins =
          streamMap (fun r => (g r).bind (kleisliChain gs)) ins := by
        have : kleisliChain (g :: gs) = fun r => (g r).bind (kleisliChain gs) :=
          funext (kleisliChain_cons g gs)
        rw [this]
      rw [hchain, ← streamMap_bind]
      cases hg : streamMap g ins with
      | none => rfl
      | some mid =>
          simp only [Option.some_bind]
          exact ih mid

theorem pipelineRun_append (l1 l2 : List (RowMap → Option RowMap))
    (ins : List RowMap) :
    pipelineRun (l1 ++ l2) ins = (pipelineRun l1 ins).bind (pipelineRun l2) := by
  induction l1 generalizing ins with
  | nil => simp [pipelineRun]
  | cons g gs ih =>
      simp only [pipelineRun, List.cons_append, List.foldlM_cons]
      cases hg : streamMap g ins with
      | none => rfl
      | some mid => exact ih mid

/-- C5.  With one Source emitting Records r1..rn in order and a chain of
per-record Transforms, each wired by `pipe = adapter.Run(&wg, pipe)`, the
final Stream carries exactly n Records and its i-th Record is the
transformed i-th input Record — the relative order of r1..rn is preserved
end to end, as it is for the case-conversion adapter instantiating the
chain. -/
theorem pipeline_preserves_order (stages : List (RowMap → Option RowMap))
    (ins outs : List RowMap) (h : pipelineRun stages ins = some outs) :
    outs.length = ins.length ∧
    ∀ (i : Nat) (hi : i < ins.length) (ho : i < outs.length),
      kleisliChain stages (ins.get ⟨i, hi⟩) = some (outs.get ⟨i, ho⟩) := by
  rw [pipelineRun_eq_streamMap] at h
  exact ⟨streamMap_length _ _ _ h, streamMap_get _ _ _ h⟩

/-- Witness for C5: the spec's scenario — three records, one
case-conversion Transform upper-casing `name` — delivers the three
transformed records in source order. -/
theorem pipeline_preserves_order_witness :
    (3 : Nat) = 3 ∧
    kleisliChain [caseRow "upper" ["name"]]
        [("id", GoValue.vint 2), ("name", GoValue.vstr "b")] =
      some [("id", GoValue.vint 2), ("name", GoValue.vstr "B")] := by
  have h : pipelineRun [caseRow "upper" ["name"]]
      [[("id", GoValue.vint 1), ("name", GoValue.vstr "a")],
        [("id", GoValue.vint 2), ("name", GoValue.vstr "b")],
        [("id", GoValue.vint 3), ("name", GoValue.vstr "b")]] =
      some [[("id", GoValue.vint 1), ("name", GoValue.vstr "A")],
        [("id", GoValue.vint 2), ("name", GoValue.vstr "B")],
        [("id", GoValue.vint 3), ("name", GoValue.vstr "B")]] := by decide
  have hp := pipeline_preserves_order _ _ _ h
  exact ⟨hp.1, hp.2 1 (by decide) (by decide)⟩

/-- C4.  Once the Source closes its Stream after emitting n Records, every
downstream Transform's output Stream is the finite list of exactly the
Records derivable from those n inputs (the record-wise image of the
transform prefix), of length n on success, and the WaitGroup balance —
one `wg.Add(1)` and one deferred `wg.Done()` per stage goroutine — reaches
zero, so `wg.Wait()` returns. -/
theorem closure_propagates_and_wait_returns
    (stages : List (RowMap → Option RowMap)) (ins outs : List RowMap)
    (h : pipelineRun stages ins = some outs) :
    (∀ k : Nat, ∃ mids, pipelineRun (stages.take k) ins = some mids ∧
        streamMap (kleisliChain (stages.take k)) ins = some mids ∧
        mids.length = ins.length) ∧
    outs.length = ins.length ∧
    runTaskAdds stages.length = runTaskDones stages.length := by
  refine ⟨?_, ?_, rfl⟩
  · intro k
    have hsplit : pipelineRun (stages.take k ++ stages.drop k) ins = some outs := by
      rw [List.take_append_drop]
      exact h
    rw [pipelineRun_append] at hsplit
    cases hmid : pipelineRun (stages.take k) ins with
    | none => rw [hmid] at hsplit; exact Option.noConfusion hsplit
    | some mids =>
        refine ⟨mids, rfl, ?_, ?_⟩
        · rw [← pipelineRun_eq_streamMap]
          exact hmid
        · have hm := hmid
          rw [pipelineRun_eq_streamMap] at hm
          exact streamMap_length _ _ _ hm
  · rw [pipelineRun_eq_streamMap] at h
    exact streamMap_length _ _ _ h

theorem goInsertByOrder_perm (key : String → Int) (a : String)
    (l : List String) : (goInsertByOrder key a l).Perm (a :: l) := by
  induction l with
  | nil => exact List.Perm.refl _
  | cons b bs ih =>
      unfold goInsertByOrder
      by_cases hc : key a < key b
      · simp only [hc, if_true]
        exact List.Perm.refl _
      · simp only [hc, if_false]
        exact (ih.cons b).trans (List.Perm.swap a b bs)

theorem goSortByOrder_perm_aux (key : String → Int) (l acc : List String) :
    (l.foldl (fun acc a => goInsertByOrder key a acc) acc).Perm (acc ++ l) := by
  induction l generalizing acc with
  | nil => simp
  | cons a as ih =>
      simp only [List.foldl_cons]
      refine (ih (goInsertByOrder key a acc)).trans ?_
      have h1 : (goInsertByOrder key a acc ++ as).Perm ((a :: acc) ++ as) :=
        (goInsertByOrder_perm key a acc).append_right as
      refine h1.trans ?_
      simpa using List.perm_middle.symm

theorem goSortByOrder_perm (key : String → Int) (l : List String) :
    (goSortByOrder key l).Perm l := by
  simpa using goSortByOrder_perm_aux key l []

theorem goInsertByOrder_mem (key : String → Int) (a x : String)
    (l : List String) (hx : x ∈ goInsertByOrder key a l) : x = a ∨ x ∈ l :=
  by simpa using (goInsertByOrder_perm key a l).mem_iff.mp hx

theorem goInsertByOrder_sorted (key : String → Int) (a : String)
    (l : List String)
    (hs : l.Pairwise (fun x y => key x ≤ key y)) :
    (goInsertByOrder key a l).Pairwise (fun x y => key x ≤ key y) := by
  induction l with
  | nil => simp [goInsertByOrder]
  | cons b bs ih =>
      unfold goInsertByOrder
      rcases List.pairwise_cons.mp hs with ⟨hb, hbs⟩
      by_cases hc : key a < key b
      · simp only [hc, if_true]
        refine List.pairwise_cons.mpr ⟨?_, hs⟩
        intro x hx
        rcases List.mem_cons.mp hx with hx | hx
        · subst hx
          exact le_of_lt hc
        · exact le_trans (le_of_lt hc) (hb x hx)
      · simp only [hc, if_false]
        refine List.pairwise_cons.mpr ⟨?_, ih hbs⟩
        intro x hx
        rcases goInsertByOrder_mem key a x bs hx with hx | hx
        · subst hx
          exact le_of_not_lt hc
        · exact hb x hx

theorem goSortByOrder_sorted_aux (key : String → Int) (l acc : List String)
    (hacc : acc.Pairwise (fun x y => key x ≤ key y)) :
    (l.foldl (fun acc a => goInsertByOrder key a acc) acc).Pairwise
      (fun x y => key x ≤ key y) := by
  induction l generalizing acc with
  | nil => exact hacc
  | cons a as ih =>
      simp only [List.foldl_cons]
      exact ih _ (goInsertByOrder_sorted key a acc hacc)

theorem goSortByOrder_sorted (key : String → Int) (l : List String) :
    (goSortByOrder key l).Pairwise (fun x y => key x ≤ key y) :=
  goSortByOrder_sorted_aux key l [] (List.Pairwise.nil)

theorem lookup_eq_of_perm (l1 l2 : List (String × AdapterCfg))
    (hp : l1.Perm l2) (hnd : (l1.map Prod.fst).Nodup) (n : String) :
    l1.lookup n = l2.lookup n := by
  revert hnd
  induction hp with
  | nil => intro _; rfl
  | cons x p ih =>
      intro hnd
      simp only [List.map_cons, List.nodup_cons] at hnd
      obtain ⟨k, v⟩ := x
      cases hnk : (n == k) with
      | true => simp [List.lookup, hnk]
      | false => simpa [List.lookup, hnk] using ih hnd.2
  | swap x y l =>
      intro hnd
      obtain ⟨k1, v1⟩ := x
      obtain ⟨k2, v2⟩ := y
      simp only [List.map_cons, List.nodup_cons, List.mem_cons] at hnd
      have hk12 : ¬ k2 = k1 := fun hc => hnd.1 (Or.inl hc)
      cases hn2 : (n == k2) with
      | true =>
          cases hn1 : (n == k1) with
          | true =>
              exact absurd ((beq_iff_eq.mp hn2).symm.trans (beq_iff_eq.mp hn1))
                hk12
          | false => simp [List.lookup, hn1, hn2]
      | false =>
          cases hn1 : (n == k1) with
          | true => simp [List.lookup, hn1, hn2]
          | false => simp [List.lookup, hn1, hn2]
  | trans p1 p2 ih1 ih2 =>
      intro hnd
      have hnd2 := ((p1.map Prod.fst).nodup_iff).mp hnd
      exact (ih1 hnd).trans (ih2 hnd2)

theorem adapterOrder_eq_of_perm (l1 l2 : List (String × AdapterCfg))
    (hp : l1.Perm l2) (hnd : (l1.map Prod.fst).Nodup) :
    adapterOrder l1 = adapterOrder l2 := by
  funext n
  unfold adapterOrder
  rw [lookup_eq_of_perm l1 l2 hp hnd n]

theorem sorted_unique_of_inj (key : String → Int) (l1 l2 : List String)
    (hp : l1.Perm l2)
    (hs1 : l1.Pairwise (fun x y => key x ≤ key y))
    (hs2 : l2.Pairwise (fun x y => key x ≤ key y))
    (hinj : ∀ a ∈ l1, ∀ b ∈ l1, key a = key b → a = b) : l1 = l2 := by
  have hanti : IsAntisymm String (fun x y => key x < key y ∨ x = y) := by
    constructor
    intro a b hab hba
    rcases hab with hab | hab
    · rcases hba with hba | hba
      · exact absurd hab (not_lt_of_gt hba)
      · exact hba.symm
    · exact hab
  have hs1' : l1.Pairwise (fun x y => key x < key y ∨ x = y) := by
    refine List.Pairwise.imp_of_mem ?_ hs1
    intro a b ha hb hle
    rcases lt_or_eq_of_le hle with hlt | heq
    · exact Or.inl hlt
    · exact Or.inr (hinj a ha b hb heq)
  have hs2' : l2.Pairwise (fun x y => key x < key y ∨ x = y) := by
    refine List.Pairwise.imp_of_mem ?_ hs2
    intro a b ha hb hle
    rcases lt_or_eq_of_le hle with hlt | heq
    · exact Or.inl hlt
    · exact Or.inr (hinj a (hp.symm.subset ha) b (hp.symm.subset hb) heq)
  exact @List.eq_of_perm_of_sorted String _ hanti l1 l2 hp hs1' hs2'

/-- C2 (corrected).  `GetAdapterNames` returns the task's adapter names
sorted ascending by their `order` value — a permutation of the configured
names that is non-strictly sorted by order — but with NO name tie-break:
equal orders keep the (unspecified) Go map iteration order, so the result
is guaranteed deterministic across iteration orders only when the `order`
values are pairwise distinct. -/
theorem adapter_names_sorted_by_order
    (adapters adapters2 : List (String × AdapterCfg)) :
    (getAdapterNames adapters).Perm (adapters.map Prod.fst) ∧
    (getAdapterNames adapters).Pairwise
      (fun a b => adapterOrder adapters a ≤ adapterOrder adapters b) ∧
    (adapters.Perm adapters2 →
      (adapters.map Prod.fst).Nodup →
      (∀ a ∈ adapters.map Prod.fst, ∀ b ∈ adapters.map Prod.fst,
        adapterOrder adapters a = adapterOrder adapters b → a = b) →
      getAdapterNames adapters = getAdapterNames adapters2) := by
  refine ⟨goSortByOrder_perm _ _, goSortByOrder_sorted _ _, ?_⟩
  intro hp hnd hinj
  have hkeys : adapterOrder adapters = adapterOrder adapters2 :=
    adapterOrder_eq_of_perm adapters adapters2 hp hnd
  have hnames : (adapters.map Prod.fst).Perm (adapters2.map Prod.fst) :=
    hp.map Prod.fst
  have hperm : (getAdapterNames adapters).Perm (getAdapterNames adapters2) :=
    ((goSortByOrder_perm _ _).trans hnames).trans
      (goSortByOrder_perm (adapterOrder adapters2) (adapters2.map Prod.fst)).symm
  have hs1 := goSortByOrder_sorted (adapterOrder adapters)
    (adapters.map Prod.fst)
  have hs2 : (getAdapterNames adapters2).Pairwise
      (fun a b => adapterOrder adapters a ≤ adapterOrder adapters b) := by
    rw [hkeys]
    exact goSortByOrder_sorted (adapterOrder adapters2) (adapters2.map Prod.fst)
  refine sorted_unique_of_inj (adapterOrder adapters) _ _ hperm hs1 ?_ ?_
  · exact hs2
  · intro a ha b hb heq
    exact hinj a ((goSortByOrder_perm _ _).subset ha) b
      ((goSortByOrder_perm _ _).subset hb) heq

/-- Witness for the C2 theorem: two iteration orders of the same two-entry
map with distinct order values resolve to the same sorted sequence. -/
theorem adapter_names_sorted_by_order_witness :
    getAdapterNames [("b", ⟨"x", 2⟩), ("a", ⟨"x", 1⟩)] =
      getAdapterNames [("a", ⟨"x", 1⟩), ("b", ⟨"x", 2⟩)] := by
  exact (adapter_names_sorted_by_order
    [("b", ⟨"x", 2⟩), ("a", ⟨"x", 1⟩)]
    [("a", ⟨"x", 1⟩), ("b", ⟨"x", 2⟩)]).2.2
    (by decide) (by decide)
    (by
      intro a ha b hb heq
      fin_cases ha <;> fin_cases hb <;> simp_all [adapterOrder, List.lookup])

/-- Counterexample to C2 as stated: with two adapters of equal `order`, the
code's sort (insertion sort, exactly what Go `sort.Slice` runs on a slice
this small) keeps the map iteration order "b" before "a" instead of
breaking the tie by name, it disagrees with the spec-described ordering,
and two iteration orders of the same map produce different execution
sequences, so the sequence is not deterministic. -/
theorem adapter_names_tie_counterexample :
    getAdapterNames [("b", ⟨"x", 1⟩), ("a", ⟨"x", 1⟩)] = ["b", "a"] ∧
    getAdapterNamesSpec [("b", ⟨"x", 1⟩), ("a", ⟨"x", 1⟩)] = ["a", "b"] ∧
    getAdapterNames [("b", ⟨"x", 1⟩), ("a", ⟨"x", 1⟩)] ≠
      getAdapterNames [("a", ⟨"x", 1⟩), ("b", ⟨"x", 1⟩)] := by
  refine ⟨by decide, by decide, by decide⟩

/-- Witness for C4 at a concrete one-Transform pipeline. -/
theorem closure_propagates_and_wait_returns_witness :
    (∃ mids, pipelineRun ([castRow boolParsers "boolean" "i" "o" ["a"]].take 1)
        [[("a", GoValue.vstr "true")]] = some mids ∧
      streamMap (kleisliChain ([castRow boolParsers "boolean" "i" "o" ["a"]].take 1))
        [[("a", GoValue.vstr "true")]] = some mids ∧
      mids.length = [[("a", GoValue.vstr "true")]].length) ∧
    runTaskAdds 1 = runTaskDones 1 := by
  have h : pipelineRun [castRow boolParsers "boolean" "i" "o" ["a"]]
      [[("a", GoValue.vstr "true")]] = some [[("a", GoValue.vbool true)]] := by
    decide
  have hc := closure_propagates_and_wait_returns _ _ _ h
  exact ⟨hc.1 1, hc.2.2⟩

theorem zipXor_length (a b : List Nat) :
    (zipXor a b).length = min a.length b.length := by
  simp [zipXor]

theorem zipXor_cancel (a b : List Nat) (h : b.length ≤ a.length) :
    zipXor a (zipXor a b) = b := by
  induction b generalizing a with
  | nil => simp [zipXor]
  | cons x xs ih =>
      cases a with
      | nil => simp at h
      | cons y ys =>
          have h2 : xs.length ≤ ys.length := by simpa using h
          simp only [zipXor, List.zipWith_cons_cons] at ih ⊢
          congr 1
          · exact Nat.xor_cancel_left y x
          · exact ih ys h2

theorem cbcEncryptBlocks_lengths (C : BlockCipher)
    (hlen : ∀ b : List Nat, b.length = 16 → (C.enc b).length = 16)
    (iv : List Nat) (ps : List (List Nat)) (hiv : iv.length = 16)
    (hps : ∀ p ∈ ps, p.length = 16) :
    ∀ c ∈ cbcEncryptBlocks C iv ps, c.length = 16 := by
  induction ps generalizing iv with
  | nil => intro c hc; simp [cbcEncryptBlocks] at hc
  | cons p ps ih =>
      intro c hc
      have hp16 : p.length = 16 := hps p (List.mem_cons_self p ps)
      have hxlen : (zipXor iv p).length = 16 := by
        rw [zipXor_length, hiv, hp16]
        simp
      have hc16 : (C.enc (zipXor iv p)).length = 16 := hlen _ hxlen
      simp only [cbcEncryptBlocks, List.mem_cons] at hc
      rcases hc with hc | hc
      · rw [hc]; exact hc16
      · exact ih (C.enc (zipXor iv p)) hc16
          (fun q hq => hps q (List.mem_cons_of_mem p hq)) c hc

theorem cbcBlocks_roundtrip (C : BlockCipher)
    (hdec : ∀ b : List Nat, b.length = 16 → C.dec (C.enc b) = b)
    (hlen : ∀ b : List Nat, b.length = 16 → (C.enc b).length = 16)
    (iv : List Nat) (ps : List (List Nat)) (hiv : iv.length = 16)
    (hps : ∀ p ∈ ps, p.length = 16) :
    cbcDecryptBlocks C iv (cbcEncryptBlocks C iv ps) = ps := by
  induction ps generalizing iv with
  | nil => rfl
  | cons p ps ih =>
      have hp16 : p.length = 16 := hps p (List.mem_cons_self p ps)
      have hxlen : (zipXor iv p).length = 16 := by
        rw [zipXor_length, hiv, hp16]
        simp
      have hc16 : (C.enc (zipXor iv p)).length = 16 := hlen _ hxlen
      simp only [cbcEncryptBlocks, cbcDecryptBlocks]
      rw [hdec _ hxlen, zipXor_cancel iv p (by rw [hiv, hp16]),
        ih (C.enc (zipXor iv p)) hc16
          (fun q hq => hps q (List.mem_cons_of_mem p hq))]

theorem toBlocks_spec : ∀ (n : Nat) (l : List Nat), l.length ≤ n →
    16 ∣ l.length →
    (toBlocks l).flatten = l ∧ ∀ b ∈ toBlocks l, b.length = 16 := by
  intro n
  induction n with
  | zero =>
      intro l hl _
      have : l = [] := List.eq_nil_of_length_eq_zero (Nat.le_zero.mp hl)
      subst this
      exact ⟨by simp [toBlocks], by intro b hb; simp [toBlocks] at hb⟩
  | succ n ih =>
      intro l hl hdvd
      by_cases hnil : l = []
      · subst hnil
        exact ⟨by simp [toBlocks], by intro b hb; simp [toBlocks] at hb⟩
      · have hpos : 0 < l.length := List.length_pos.mpr hnil
        have h16 : 16 ≤ l.length := by
          rcases hdvd with ⟨c, hc⟩
          rcases Nat.eq_zero_or_pos c with h0 | hcpos
          · rw [h0, Nat.mul_zero] at hc
            exact absurd hc (Nat.pos_iff_ne_zero.mp hpos)
          · rw [hc]
            calc 16 = 16 * 1 := by ring
              _ ≤ 16 * c := Nat.mul_le_mul_left 16 hcpos
        have hdropdvd : 16 ∣ (l.drop 16).length := by
          rw [List.length_drop]
          exact (Nat.dvd_sub' hdvd (dvd_refl 16))
        have hdroplen : (l.drop 16).length ≤ n := by
          rw [List.length_drop]
          omega
        obtain ⟨ihfl, ihlen⟩ := ih (l.drop 16) hdroplen hdropdvd
        have hopen : toBlocks l = l.take 16 :: toBlocks (l.drop 16) := by
          rw [toBlocks]
          simp [hnil]
        constructor
        · rw [hopen]
          simp only [List.flatten_cons, ihfl]
          exact List.take_append_drop 16 l
        · intro b hb
          rw [hopen] at hb
          rcases List.mem_cons.mp hb with hb | hb
          · rw [hb, List.length_take]
            omega
          · exact ihlen b hb

theorem toBlocks_of_flatten (bs : List (List Nat))
    (hbs : ∀ b ∈ bs, b.length = 16) : toBlocks bs.flatten = bs := by
  induction bs with
  | nil => simp [toBlocks]
  | cons b rest ih =>
      have hb16 : b.length = 16 := hbs b (List.mem_cons_self b rest)
      have hnil : ¬ (b ++ rest.flatten) = [] := by
        intro hc
        have := congrArg List.length hc
        simp [hb16] at this
      rw [List.flatten_cons, toBlocks]
      simp only [hnil, if_false]
      have htake : (b ++ rest.flatten).take 16 = b := by
        rw [← hb16]
        exact List.take_left b rest.flatten
      have hdrop : (b ++ rest.flatten).drop 16 = rest.flatten := by
        rw [← hb16]
        exact List.drop_left b rest.flatten
      rw [htake, hdrop, ih (fun q hq => hbs q (List.mem_cons_of_mem b hq))]

theorem flatten_length_dvd (bs : List (List Nat))
    (hbs : ∀ b ∈ bs, b.length = 16) : 16 ∣ bs.flatten.length := by
  induction bs with
  | nil => simp
  | cons b rest ih =>
      rw [List.flatten_cons, List.length_append,
        hbs b (List.mem_cons_self b rest)]
      exact Nat.dvd_add (dvd_refl 16)
        (ih (fun q hq => hbs q (List.mem_cons_of_mem b hq)))

theorem findIdx_append_zeros (p : List Nat) (k : Nat) (hz : ¬ 0 ∈ p) :
    List.findIdx (fun b => b == 0) (p ++ List.replicate k 0) = p.length := by
  induction p with
  | nil =>
      cases k with
      | zero => rfl
      | succ m => simp [List.replicate, List.findIdx_cons]
  | cons a p ih =>
      have ha : ¬ a = 0 := fun hc => hz (hc ▸ List.mem_cons_self a p)
      have hz2 : ¬ 0 ∈ p := fun hc => hz (List.mem_cons_of_mem a hc)
      simp only [List.cons_append, List.findIdx_cons]
      rw [show ((a == 0) = false) from beq_eq_false_iff_ne.mpr ha]
      simp [ih hz2]

/-- C8.  Round-trip of the AES/CBC/zero-pad field transform: for any block
cipher satisfying the `crypto/aes` contract, any text codec satisfying the
`base64.StdEncoding` round-trip contract, a key of a valid AES length, a
16-byte IV and a plaintext containing no zero byte, decrypting the
encryption returns the original plaintext. -/
theorem aescbc_zeropad_roundtrip (C : BlockCipher)
    (b64encode : List Nat → String) (b64decode : String → Option (List Nat))
    (key iv plaintxt : List Nat)
    (hdec : ∀ b : List Nat, b.length = 16 → C.dec (C.enc b) = b)
    (hlen : ∀ b : List Nat, b.length = 16 → (C.enc b).length = 16)
    (hb64 : ∀ bs : List Nat, b64decode (b64encode bs) = some bs)
    (hkey : validAESKeyLength key) (hiv : iv.length = 16)
    (hz : ¬ 0 ∈ plaintxt) :
    (encryptAESCBCWithZeropad C b64encode plaintxt key iv).bind
        (fun ct => decryptAESCBCZeropad C b64decode ct key iv) =
      some plaintxt := by
  have hivne : ¬ iv.length ≠ 16 := by rw [hiv]; exact fun hc => hc rfl
  set padding0 := 16 - plaintxt.length % 16 with hpad0
  set padding := if padding0 = 16 then 0 else padding0 with hpad
  set paddedtxt := plaintxt ++ List.replicate padding 0 with hpadded
  have hpaddvd : 16 ∣ paddedtxt.length := by
    rw [hpadded, List.length_append, List.length_replicate, hpad, hpad0]
    have h1 : plaintxt.length % 16 < 16 := Nat.mod_lt _ (by omega)
    have h2 := Nat.div_add_mod plaintxt.length 16
    by_cases hc : 16 - plaintxt.length % 16 = 16
    · simp only [hc, if_true]
      exact ⟨plaintxt.length / 16, by omega⟩
    · simp only [hc, if_false]
      exact ⟨plaintxt.length / 16 + 1, by omega⟩
  obtain ⟨hflat, hblens⟩ := toBlocks_spec paddedtxt.length paddedtxt
    (le_refl _) hpaddvd
  set ct := (cbcEncryptBlocks C iv (toBlocks paddedtxt)).flatten with hct
  have hctlens : ∀ c ∈ cbcEncryptBlocks C iv (toBlocks paddedtxt),
      c.length = 16 := cbcEncryptBlocks_lengths C hlen iv _ hiv hblens
  have hctdvd : 16 ∣ ct.length := flatten_length_dvd _ hctlens
  have hctmod : ¬ ct.length % 16 ≠ 0 := by
    have h0 : ct.length % 16 = 0 := by
      rcases hctdvd with ⟨c, hc⟩
      omega
    exact fun hc => hc h0
  have henc : encryptAESCBCWithZeropad C b64encode plaintxt key iv =
      some (b64encode ct) := by
    rw [encryptAESCBCWithZeropad]
    simp only [hkey, not_true_eq_false, if_false, hivne, ← hpad0, ← hpad,
      ← hpadded, ← hct]
  rw [henc, Option.some_bind, decryptAESCBCZeropad]
  simp only [hkey, not_true_eq_false, if_false, hb64 ct, hivne, hctmod]
  rw [toBlocks_of_flatten _ hctlens,
    cbcBlocks_roundtrip C hdec hlen iv _ hiv hblens, hflat]
  rw [hpadded, findIdx_append_zeros plaintxt padding hz]
  rw [← hpadded]
  have : paddedtxt.take plaintxt.length = plaintxt := by
    rw [hpadded]
    exact List.take_left plaintxt _
  rw [this]

theorem trivDecodeAux_replicate (n : Nat) (rest : List Char) (cur : Nat) :
    trivDecodeAux (List.replicate n 'a' ++ rest) cur =
      trivDecodeAux rest (cur + n) := by
  induction n generalizing cur with
  | zero => simp
  | succ m ih =>
      rw [List.replicate_succ, List.cons_append]
      have step : trivDecodeAux ('a' :: (List.replicate m 'a' ++ rest)) cur =
          trivDecodeAux (List.replicate m 'a' ++ rest) (cur + 1) := by
        simp [trivDecodeAux]
      rw [step, ih (cur + 1)]
      congr 1
      omega

theorem trivDecode_trivEncode (bs : List Nat) :
    trivDecode (trivEncode bs) = some bs := by
  induction bs with
  | nil => rfl
  | cons n rest ih =>
      unfold trivDecode trivEncode at ih ⊢
      simp only [List.flatMap_cons, List.append_assoc, List.singleton_append]
      rw [trivDecodeAux_replicate]
      have hb : trivDecodeAux
          ('b' :: rest.flatMap (fun n => List.replicate n 'a' ++ ['b']))
          (0 + n) =
          (trivDecodeAux
            (rest.flatMap (fun n => List.replicate n 'a' ++ ['b']))
            0).map ((0 + n) :: ·) := by
        simp [trivDecodeAux]
      rw [hb]
      rw [show trivDecodeAux
          (rest.flatMap (fun n => List.replicate n 'a' ++ ['b'])) 0 =
          some rest from ih]
      simp

/-- Witness for C8: the identity block cipher and unary codec satisfy the
stdlib contracts, and the byte string 1,2,3 survives the round trip under
a 16-byte all-zero key and IV. -/
theorem aescbc_zeropad_roundtrip_witness :
    (encryptAESCBCWithZeropad idCipher trivEncode [1, 2, 3]
        (List.replicate 16 0) (List.replicate 16 0)).bind
      (fun ct => decryptAESCBCZeropad idCipher trivDecode ct
        (List.replicate 16 0) (List.replicate 16 0)) = some [1, 2, 3] := by
  refine aescbc_zeropad_roundtrip idCipher trivEncode trivDecode
    (List.replicate 16 0) (List.replicate 16 0) [1, 2, 3]
    (fun b _ => rfl) (fun b hb => hb) trivDecode_trivEncode
    (Or.inl (by simp)) (by simp) (by decide)

end Datacat
